import Mathlib

/-!
Shallow embedding of the Vietoris-Rips complex core (`complexes.py`) of the
tedea repository, together with theorems settling the frozen claims about it.

Conventions of the embedding:
* Python float values (radius, metric values) are modelled as elements of an
  arbitrary linearly ordered type `R` with a multiplication and a numeral `2`
  (so that the threshold `2 * radius` can be formed); the metric is an
  arbitrary function into `R`, matching the "any user-supplied function"
  input contract.  Concrete witnesses instantiate `R := Int`.
* GF(2) matrix entries are modelled as `Bool` (`true` = 1), matrices as
  `List (List Bool)` in row-major order, exactly the shapes numpy produces.
* `networkx.find_cliques` (an external library call) is modelled by its
  documented contract: it returns exactly the maximal cliques of the graph,
  each clique listed once.  `np.linalg.matrix_rank` on a `galois` GF(2) array
  is modelled by the rank of the matrix over GF(2), computed executably as the
  dimension of the row span.
* Python's stable `sorted(..., key=...)` is modelled by a stable insertion
  sort; Python string comparison coincides with Lean's `String` order.
* The iteration order of a Python `set` of faces is not determined by the
  program input (hash randomisation); functions suffixed `_e` take this
  enumeration order as an explicit parameter `e`, and the canonical
  (unsuffixed) versions fix one particular order.
-/

namespace Tedea

/-- XOR of two GF(2) row vectors, componentwise. -/
def xorVec (u v : List Bool) : List Bool := List.zipWith xor u v

/-- Stable insertion of `x` into `l`: `x` goes before the first element `y`
with `le x y`. -/
def sinsert {α : Type} (le : α → α → Bool) (x : α) : List α → List α
  | [] => [x]
  | y :: ys => if le x y then x :: y :: ys else y :: sinsert le x ys

/-- Stable insertion sort, modelling Python's stable `sorted`. -/
def ssort {α : Type} (le : α → α → Bool) : List α → List α
  | [] => []
  | x :: xs => sinsert le x (ssort le xs)

/-- `itertools.combinations(l, 2)`: all ordered pairs of positions `i < j`. -/
def pairs {α : Type} : List α → List (α × α)
  | [] => []
  | x :: xs => xs.map (fun y => (x, y)) ++ pairs xs

/-- `np.transpose` on a row-major matrix whose rows all have length `w`. -/
def transposeW (w : Nat) (A : List (List Bool)) : List (List Bool) :=
  (List.range w).map (fun i => A.map (fun r => r.getD i false))

/-- `set(face).issubset(set(simplex))`. -/
def subsetB (f s : List String) : Bool := f.all (fun x => s.contains x)

/-- Python `<` on strings: lexicographic comparison of code points. -/
def charsLtB : List Char → List Char → Bool
  | [], [] => false
  | [], _ :: _ => true
  | _ :: _, [] => false
  | a :: as, b :: bs =>
    if a.toNat < b.toNat then true
    else if b.toNat < a.toNat then false
    else charsLtB as bs

/-- Python `<=` on strings (total order, lexicographic on code points). -/
def strLeB (s t : String) : Bool := !(charsLtB t.data s.data)

/-- Python `<=` on the sort key `(len(simplex), simplex[0])`. -/
def simplexKeyLe (a b : List String) : Bool :=
  decide (a.length < b.length) ||
    (decide (a.length = b.length) && strLeB (a.headD "") (b.headD ""))

/-- Python `<=` on the sort key `face[0]`. -/
def headKeyLe (a b : List String) : Bool := strLeB (a.headD "") (b.headD "")

/-- All subset XOR-sums of a list of GF(2) row vectors of width `n`
(the row span of the matrix, with repetitions). -/
def subsetSums (n : Nat) : List (List Bool) → List (List Bool)
  | [] => [List.replicate n false]
  | r :: rs => subsetSums n rs ++ (subsetSums n rs).map (xorVec r)

/-- All subset XOR-sums of a list of GF(2) vectors presented as functions
(pointwise XOR); the function-level counterpart of `subsetSums`, used to
relate matrices that differ only in the enumeration order of the columns. -/
def funSums {β : Type} : List (β → Bool) → List (β → Bool)
  | [] => [fun _ => false]
  | g :: gs => funSums gs ++ (funSums gs).map (fun h x => xor (g x) (h x))

/-- `shape[1]` of a nonempty row-major matrix. -/
def colNum (M : List (List Bool)) : Nat := (M.headD []).length

/-- Dimension of the span of a list of GF(2) row vectors of width `n`:
each row not already in the span of the rows after it adds one. -/
def rankRows (n : Nat) : List (List Bool) → Nat
  | [] => 0
  | r :: rs => if r ∈ subsetSums n rs then rankRows n rs else rankRows n rs + 1

/-- `np.linalg.matrix_rank` on a `galois` GF(2) array: the rank of the
matrix over GF(2), i.e. the dimension of its row span. -/
def rankM (M : List (List Bool)) : Nat := rankRows (colNum M) M

/-- GF(2) dot product of two vectors. -/
def gf2Dot (u v : List Bool) : Bool := (List.zipWith and u v).foldr xor false

/-- Column `j` of a row-major matrix. -/
def colOf (M : List (List Bool)) (j : Nat) : List Bool :=
  M.map (fun r => r.getD j false)

/-- GF(2) matrix product of row-major matrices. -/
def matMulB (A B : List (List Bool)) : List (List Bool) :=
  A.map (fun r => (List.range (colNum B)).map (fun j => gf2Dot r (colOf B j)))

/-- The immutable input of `VietorisRipsComplex`: named points, radius and
metric (spec section 3; `vertex_names`, `vertices`, `radius`, `metric`). -/
structure VRInput (α R : Type) where
  vertex_names : List String
  verts : List α
  radius : R
  metric : α → α → R

section Model

variable {α R : Type} [Inhabited α] [LinearOrder R] [Mul R] [OfNat R 2]

/-- `self.vertices[k]`: lookup in `dict(zip(vertex_names, vertices))`
(last binding wins, as for a Python dict). -/
def dictGet (inp : VRInput α R) (k : String) : α :=
  (((inp.vertex_names.zip inp.verts).reverse).lookup k).getD default

/-- The edge list built by `construct_graph`: one entry per unordered pair
of names (in list order) whose distance is at most `2 * radius`. -/
def construct_graph (inp : VRInput α R) : List (String × String) :=
  (pairs inp.vertex_names).filter
    (fun e => decide (inp.metric (dictGet inp e.1) (dictGet inp e.2) ≤ 2 * inp.radius))

/-- Adjacency in the (undirected) proximity graph. -/
def adjB (inp : VRInput α R) (u v : String) : Bool :=
  (construct_graph inp).any (fun e => decide (e = (u, v)) || decide (e = (v, u)))

/-- `s` is pairwise adjacent (a clique of the proximity graph). -/
def pairwiseB (adj : String → String → Bool) : List String → Bool
  | [] => true
  | x :: xs => xs.all (adj x) && pairwiseB adj xs

/-- `s` is a nonempty maximal clique: a clique no further vertex extends. -/
def isMaxCliqueB (inp : VRInput α R) (s : List String) : Bool :=
  !s.isEmpty && pairwiseB (adjB inp) s &&
    inp.vertex_names.all (fun v => decide (v ∈ s) || !pairwiseB (adjB inp) (v :: s))

/-- `nx.find_cliques`, modelled by its contract: all maximal cliques of the
graph, each once (here enumerated as sublists of the node list). -/
def find_cliques (inp : VRInput α R) : List (List String) :=
  inp.vertex_names.sublists.filter (isMaxCliqueB inp)

/-- `get_simplices`: each maximal clique sorted, the list of them sorted by
`(len(simplex), simplex[0])`. -/
def get_simplices (inp : VRInput α R) : List (List String) :=
  ssort simplexKeyLe ((find_cliques inp).map (ssort strLeB))

/-- `self.dim`: one less than the size of the largest maximal simplex. -/
def dimI (inp : VRInput α R) : Int :=
  (((get_simplices inp).foldr (fun s m => max s.length m) 0 : Nat) : Int) - 1

/-- The `p = 0` branch of `get_p_simplices`: `[list(face) for face in
self.vertex_names]` — Python iterates each *name string*, so every name is
split into its characters (each a one-character string). -/
def charFaces (names : List String) : List (List String) :=
  names.map (fun s => s.data.map (fun c => Char.toString c))

/-- `get_p_simplices`, with the iteration order of the Python set
`unique_faces` made explicit as the parameter `e` (`e` rearranges the
deduplicated face list; a valid set order is any permutation of it). -/
def get_p_simplices_e (e : List (List String) → List (List String))
    (inp : VRInput α R) (p : Int) : List (List String) :=
  if p = 0 then charFaces inp.vertex_names
  else if p < 0 ∨ dimI inp < p then [[]]
  else
    ssort headKeyLe (e ((((get_simplices inp).filter
      (fun s => decide (p + 1 ≤ (s.length : Int)))).map
        (fun s => List.sublistsLen (p + 1).toNat s)).flatten.dedup))

/-- `get_p_simplices` with the canonical set order. -/
def get_p_simplices (inp : VRInput α R) (p : Int) : List (List String) :=
  get_p_simplices_e id inp p

/-- `get_p_boundary_matrix`, parametric in the set order `e`. -/
def get_p_boundary_matrix_e (e : List (List String) → List (List String))
    (inp : VRInput α R) (p : Int) : List (List Bool) :=
  let ps := get_p_simplices_e e inp p
  let fs := get_p_simplices_e e inp (p - 1)
  if ps = [[]] ∧ fs = [[]] then [[false]]
  else if ps = [[]] then List.replicate fs.length [false]
  else if fs = [[]] then [List.replicate ps.length false]
  else transposeW fs.length (ps.map (fun s => fs.map (fun f => subsetB f s)))

/-- `get_p_boundary_matrix` with the canonical set order. -/
def get_p_boundary_matrix (inp : VRInput α R) (p : Int) : List (List Bool) :=
  get_p_boundary_matrix_e id inp p

/-- `get_p_betti`, parametric in the set order `e`: the guard returns 0 when
both boundary matrices are structurally the 1×1 zero matrix, otherwise the
rank-nullity formula is used. -/
def get_p_betti_e (e : List (List String) → List (List String))
    (inp : VRInput α R) (p : Int) : Int :=
  let Mp := get_p_boundary_matrix_e e inp p
  let Mp1 := get_p_boundary_matrix_e e inp (p + 1)
  if Mp = [[false]] ∧ Mp1 = [[false]] then 0
  else (colNum Mp : Int) - (rankM Mp : Int) - (rankM Mp1 : Int)

/-- `get_p_betti` with the canonical set order. -/
def get_p_betti (inp : VRInput α R) (p : Int) : Int :=
  get_p_betti_e id inp p

/-- The unguarded rank-nullity formula of `get_p_betti` (its `return
col_num - p_rank - p1_rank` branch), for comparison with the guard. -/
def plain_betti (inp : VRInput α R) (p : Int) : Int :=
  (colNum (get_p_boundary_matrix inp p) : Int)
    - (rankM (get_p_boundary_matrix inp p) : Int)
    - (rankM (get_p_boundary_matrix inp (p + 1)) : Int)

/-- `get_betti`, parametric in the set order `e`. -/
def get_betti_e (e : List (List String) → List (List String))
    (inp : VRInput α R) : List Int :=
  (List.range (dimI inp + 1).toNat).map (fun k => get_p_betti_e e inp (k : Int))

/-- `get_betti` with the canonical set order. -/
def get_betti (inp : VRInput α R) : List Int :=
  get_betti_e id inp

/-- One sweep of the spec-side reachability closure: keep every vertex
already in `s` or adjacent to a member of `s`, in vertex-list order. -/
def nbrStep (inp : VRInput α R) (s : List String) : List String :=
  inp.vertex_names.filter (fun v => decide (v ∈ s) || s.any (fun u => adjB inp u v))

/-- Iterate the reachability sweep. -/
def iterStep (inp : VRInput α R) : Nat → List String → List String
  | 0, s => s
  | n + 1, s => iterStep inp n (nbrStep inp s)

/-- Modelled from the spec: the connected component of `u` in the proximity
graph (the code never computes components; spec section 8 refers to them).
`|V|` sweeps reach every vertex connected to `u`; the result is canonical
(a filter of the vertex list). -/
def componentOf (inp : VRInput α R) (u : String) : List String :=
  iterStep inp inp.vertex_names.length [u]

/-- Modelled from the spec: the number of connected components of the
proximity graph. -/
def numComponents (inp : VRInput α R) : Nat :=
  ((inp.vertex_names.map (componentOf inp)).dedup).length

end Model

/-- The exception raised by `__init__` when the default-name expression
`[str(i) for i in range(len(self.vertices))]` reads `self.vertices` before
any attribute has been assigned (Python `AttributeError`). -/
inductive InitError where
  | attributeError
deriving DecidableEq

/-- The attribute state of a fully constructed `VietorisRipsComplex`. -/
structure VRState (α R : Type) where
  vertex_names : List String
  vertices : List (String × α)
  radius : R
  metric : α → α → R
  graph : List (String × String)
  simplices : List (List String)
  dim : Int

/-- `__init__`: line 54 evaluates `vertex_names or [str(i) for i in
range(len(self.vertices))]`.  If `vertex_names` is truthy (a non-empty
list), the right operand is never evaluated and construction proceeds;
otherwise Python evaluates the right operand, which reads the not yet
assigned attribute `self.vertices` and raises `AttributeError` before any
attribute is set. -/
def vrInit {α R : Type} [Inhabited α] [LinearOrder R] [Mul R] [OfNat R 2]
    (vertices : List α) (radius : R) (vertex_names : Option (List String))
    (metric : α → α → R) : Except InitError (VRState α R) :=
  match vertex_names with
  | none => .error .attributeError
  | some l =>
    if l.isEmpty then .error .attributeError
    else
      let inp : VRInput α R := ⟨l, vertices, radius, metric⟩
      .ok { vertex_names := l, vertices := l.zip vertices, radius := radius,
            metric := metric, graph := construct_graph inp,
            simplices := get_simplices inp, dim := dimI inp }

/-- A single isolated point named "A" (any radius, any metric would do:
with one point the metric is never called). -/
def inpSingle : VRInput Unit Int :=
  { vertex_names := ["A"], verts := [()], radius := 1, metric := fun _ _ => 0 }

/-- Two points named "A" and "B" within reach of each other. -/
def inpTwo : VRInput Unit Int :=
  { vertex_names := ["A", "B"], verts := [(), ()], radius := 1,
    metric := fun _ _ => 0 }

/-- A single point whose name has two characters. -/
def inpNameAB : VRInput Unit Int :=
  { vertex_names := ["AB"], verts := [()], radius := 1, metric := fun _ _ => 0 }

/-- Three coincident points named "A", "B" and "AB": the proximity graph is
complete, the unique maximal simplex is the sorted triple A, AB, B. -/
def inpABAB : VRInput Unit Int :=
  { vertex_names := ["A", "B", "AB"], verts := [(), (), ()], radius := 0,
    metric := fun _ _ => 0 }

/-- Two points on a line at distance exactly `2 * radius`. -/
def inpLine : VRInput Int Int :=
  { vertex_names := ["A", "B"], verts := [0, 2], radius := 1,
    metric := fun a b => |a - b| }

/-- Four points at the corners of a square under the Manhattan metric, the
radius chosen so that exactly the four sides are edges (the spec's
four-point cycle example, scaled to integers). -/
def inpSq : VRInput (Int × Int) Int :=
  { vertex_names := ["A", "B", "C", "D"],
    verts := [(0, 0), (2, 0), (0, 2), (2, 2)], radius := 1,
    metric := fun a b => |a.1 - b.1| + |a.2 - b.2| }

/-- A second valid iteration order of the Python set of 1-faces of `inpSq`:
the set holds the four side edges; this order swaps the two edges at
vertex "A" relative to the canonical order.  Any order of a set's elements
can occur, since Python string hashing is randomised per process. -/
def swapEnum : List (List String) → List (List String) :=
  fun l =>
    if l = [["A", "B"], ["A", "C"], ["B", "D"], ["C", "D"]] then
      [["A", "C"], ["A", "B"], ["B", "D"], ["C", "D"]]
    else l

/-- C1: the claim states that for a complex built from a single isolated
point the full Betti sequence returned by `get_betti` equals `[1]`.  In the
code the guard of `get_p_betti` fires (both boundary matrices are the 1×1
zero matrix for a single point), so `get_betti` returns `[0]` instead:
the claim is right about the intended homology (a point has one connected
component) and the code diverges. -/
theorem C1_single_point_betti_is_zero : get_betti inpSingle = [0] := by decide

/-- C3: the claim states that `BoundaryMatrix(p) · BoundaryMatrix(p+1) = 0`
over GF(2) for every complex and every `p` in `0..dim`.  For the complex on
the three points named "A", "B", "AB" (dimension 2), the product of the
first and second boundary matrices has a nonzero entry, because the `p = 0`
face enumerator splits the name "AB" into characters and the resulting
0-face is spuriously incident to the edge between "A" and "B". -/
theorem C3_boundary_product_nonzero :
    dimI inpABAB = 2 ∧
      matMulB (get_p_boundary_matrix inpABAB 1) (get_p_boundary_matrix inpABAB 2)
        = [[false], [false], [true]] := by decide

/-- C4: the claim states that `get_p_betti(0)` equals the number of connected
components of the proximity graph for every input.  For a single isolated
point the graph has one component but the guard in `get_p_betti` returns 0. -/
theorem C4_single_point_component_mismatch :
    get_p_betti inpSingle 0 = 0 ∧ numComponents inpSingle = 1 := by decide

/-- C5: the claim states that the face enumerator at `p = 0` returns each
point name as a singleton face.  The code iterates over each name string,
so a point named "AB" yields the two-element face consisting of the
character strings "A" and "B", not the singleton face containing "AB". -/
theorem C5_name_split_into_characters :
    get_p_simplices inpNameAB 0 = [["A", "B"]] := by decide

/-- C8: the claim states that `get_p_betti(p)` is non-negative for every
complex and every `p` in `0..dim`.  For the complex on the three points
named "A", "B", "AB", dimension `p = 1` is in range and the returned value
is `-1` (the character-split 0-faces inflate the rank of the first boundary
matrix). -/
theorem C8_betti_can_be_negative :
    dimI inpABAB = 2 ∧ get_p_betti inpABAB 1 = -1 := by decide

/-- C10: constructing a complex with `vertex_names` omitted (`None`) or any
falsy value (the empty list) always raises before any attribute is set,
because the default-name expression reads `self.vertices` before it is
assigned; the documented fallback to index-based names is never produced. -/
theorem C10_falsy_vertex_names_raise {α R : Type} [Inhabited α] [LinearOrder R]
    [Mul R] [OfNat R 2] (vertices : List α) (radius : R)
    (vertex_names : Option (List String)) (metric : α → α → R)
    (h : vertex_names = none ∨ vertex_names = some []) :
    vrInit vertices radius vertex_names metric = .error .attributeError := by
  rcases h with h | h <;> subst h <;> rfl

/-- Witness for C10 at a concrete falsy input. -/
theorem C10_falsy_vertex_names_raise_witness :
    vrInit ([] : List Unit) (0 : Int) none (fun _ _ => (0 : Int))
      = .error .attributeError :=
  C10_falsy_vertex_names_raise [] 0 none (fun _ _ => 0) (Or.inl rfl)

theorem mem_pairs {α : Type} {a b : α} :
    ∀ {l : List α}, (a, b) ∈ pairs l → a ∈ l ∧ b ∈ l := by
  intro l
  induction l with
  | nil => simp [pairs]
  | cons x xs ih =>
    intro h
    simp only [pairs, List.mem_append, List.mem_map] at h
    rcases h with ⟨y, hy, he⟩ | h
    · obtain ⟨rfl, rfl⟩ := Prod.mk.injEq .. ▸ he
      exact ⟨List.mem_cons_self _ _, List.mem_cons_of_mem _ hy⟩
    · exact ⟨List.mem_cons_of_mem _ (ih h).1, List.mem_cons_of_mem _ (ih h).2⟩

theorem pairs_cover {α : Type} {a b : α} :
    ∀ {l : List α}, a ∈ l → b ∈ l → a ≠ b →
      (a, b) ∈ pairs l ∨ (b, a) ∈ pairs l := by
  intro l
  induction l with
  | nil => simp
  | cons x xs ih =>
    intro ha hb hne
    rcases List.mem_cons.mp ha with rfl | ha'
    · rcases List.mem_cons.mp hb with rfl | hb'
      · exact absurd rfl hne
      · exact Or.inl (show (a, b) ∈ xs.map (fun y => (a, y)) ++ pairs xs from
          List.mem_append_left _ (List.mem_map_of_mem _ hb'))
    · rcases List.mem_cons.mp hb with rfl | hb'
      · exact Or.inr (show (b, a) ∈ xs.map (fun y => (b, y)) ++ pairs xs from
          List.mem_append_left _ (List.mem_map_of_mem _ ha'))
      · rcases ih ha' hb' hne with h | h
        · exact Or.inl (show (a, b) ∈ xs.map (fun y => (x, y)) ++ pairs xs from
            List.mem_append_right _ h)
        · exact Or.inr (show (b, a) ∈ xs.map (fun y => (x, y)) ++ pairs xs from
            List.mem_append_right _ h)

/-- C6: in the proximity graph there is an edge between distinct names `u`,
`v` exactly when the metric distance between their coordinates is at most
`2 * radius` (boundary included: `<=`, not `<`; the witness exhibits a pair
at distance exactly `2 * radius`). -/
theorem C6_edge_iff_distance_le {α R : Type} [Inhabited α] [LinearOrder R]
    [Mul R] [OfNat R 2] (inp : VRInput α R) (u v : String)
    (hu : u ∈ inp.vertex_names) (hv : v ∈ inp.vertex_names) (huv : u ≠ v)
    (hsym : ∀ a b, inp.metric a b = inp.metric b a) :
    adjB inp u v = true ↔
      inp.metric (dictGet inp u) (dictGet inp v) ≤ 2 * inp.radius := by
  constructor
  · intro h
    simp only [adjB, List.any_eq_true, construct_graph, List.mem_filter,
      Bool.or_eq_true, decide_eq_true_eq] at h
    obtain ⟨e, ⟨hmem, hle⟩, he⟩ := h
    rcases he with rfl | rfl
    · exact hle
    · exact hsym (dictGet inp v) (dictGet inp u) ▸ hle
  · intro h
    simp only [adjB, List.any_eq_true, construct_graph, List.mem_filter,
      Bool.or_eq_true, decide_eq_true_eq]
    rcases pairs_cover hu hv huv with hp | hp
    · exact ⟨(u, v), ⟨hp, h⟩, Or.inl rfl⟩
    · exact ⟨(v, u), ⟨hp, (hsym (dictGet inp u) (dictGet inp v)) ▸ h⟩, Or.inr rfl⟩

/-- Witness for C6: two points at distance exactly `2 * radius` are
connected by an edge. -/
theorem C6_edge_iff_distance_le_witness : adjB inpLine "A" "B" = true :=
  (C6_edge_iff_distance_le inpLine "A" "B" (by decide) (by decide) (by decide)
    (fun a b => abs_sub_comm a b)).mpr (by decide)

theorem getD_map_of_lt {β γ : Type} (f : β → γ) (l : List β) (i : Nat) (d : γ)
    (d' : β) (h : i < l.length) : (l.map f).getD i d = f (l.getD i d') := by
  rw [List.getD_eq_getElem?_getD, List.getD_eq_getElem?_getD, List.getElem?_map,
    List.getElem?_eq_getElem h]
  simp

theorem getD_range_of_lt {w i : Nat} (d : Nat) (h : i < w) :
    (List.range w).getD i d = i := by
  rw [List.getD_eq_getElem?_getD,
    List.getElem?_eq_getElem (by simpa using h : i < (List.range w).length)]
  simp

theorem transposeW_length (w : Nat) (A : List (List Bool)) :
    (transposeW w A).length = w := by
  simp [transposeW]

theorem transposeW_row_length (w : Nat) (A : List (List Bool)) :
    ∀ r ∈ transposeW w A, r.length = A.length := by
  intro r hr
  simp only [transposeW, List.mem_map] at hr
  obtain ⟨i, _, rfl⟩ := hr
  simp

theorem transposeW_entry (w : Nat) (A : List (List Bool)) (i j : Nat)
    (hi : i < w) (hj : j < A.length) :
    ((transposeW w A).getD i []).getD j false = (A.getD j []).getD i false := by
  rw [show transposeW w A = (List.range w).map (fun i => A.map (fun r => r.getD i false))
    from rfl]
  rw [getD_map_of_lt _ _ i [] 0 (by simpa using hi), getD_range_of_lt 0 hi,
    getD_map_of_lt _ _ j false [] hj]

/-- C7: the boundary matrix has the stated shape in each of the four cases:
1×1 zero when both face lists are the sentinel `[[]]`; a `|rows| × 1` zero
column when only the `p`-face list is the sentinel; a `1 × |cols|` zero row
when only the `(p-1)`-face list is the sentinel; otherwise `|rows| × |cols|`
with rows indexed by `(p-1)`-faces, columns by `p`-faces, and entry
`(i, j) = 1` iff the `i`-th row face is a subset of the `j`-th column face. -/
theorem C7_boundary_matrix_shape {α R : Type} [Inhabited α] [LinearOrder R]
    [Mul R] [OfNat R 2] (inp : VRInput α R) (p : Int) :
    (get_p_simplices inp p = [[]] → get_p_simplices inp (p - 1) = [[]] →
      get_p_boundary_matrix inp p = [[false]]) ∧
    (get_p_simplices inp p = [[]] → get_p_simplices inp (p - 1) ≠ [[]] →
      get_p_boundary_matrix inp p
        = List.replicate (get_p_simplices inp (p - 1)).length [false]) ∧
    (get_p_simplices inp p ≠ [[]] → get_p_simplices inp (p - 1) = [[]] →
      get_p_boundary_matrix inp p
        = [List.replicate (get_p_simplices inp p).length false]) ∧
    (get_p_simplices inp p ≠ [[]] → get_p_simplices inp (p - 1) ≠ [[]] →
      (get_p_boundary_matrix inp p).length = (get_p_simplices inp (p - 1)).length ∧
      (∀ r ∈ get_p_boundary_matrix inp p,
        r.length = (get_p_simplices inp p).length) ∧
      ∀ i j, i < (get_p_simplices inp (p - 1)).length →
        j < (get_p_simplices inp p).length →
        ((get_p_boundary_matrix inp p).getD i []).getD j false
          = subsetB ((get_p_simplices inp (p - 1)).getD i [])
              ((get_p_simplices inp p).getD j [])) := by
  have hunfold : get_p_boundary_matrix inp p = get_p_boundary_matrix_e id inp p := rfl
  have hps : get_p_simplices inp p = get_p_simplices_e id inp p := rfl
  have hfs : get_p_simplices inp (p - 1) = get_p_simplices_e id inp (p - 1) := rfl
  refine ⟨?_, ?_, ?_, ?_⟩
  · intro h1 h2
    rw [hunfold, get_p_boundary_matrix_e, if_pos ⟨hps ▸ h1, hfs ▸ h2⟩]
  · intro h1 h2
    rw [hfs, hunfold, get_p_boundary_matrix_e, if_neg (fun hc => h2 (hfs ▸ hc.2)),
      if_pos (hps ▸ h1)]
  · intro h1 h2
    rw [hps, hunfold, get_p_boundary_matrix_e, if_neg (fun hc => h1 (hps ▸ hc.1)),
      if_neg (hps ▸ h1), if_pos (hfs ▸ h2)]
  · intro h1 h2
    have hM : get_p_boundary_matrix inp p
        = transposeW (get_p_simplices inp (p - 1)).length
            ((get_p_simplices inp p).map
              (fun s => (get_p_simplices inp (p - 1)).map (fun f => subsetB f s))) := by
      rw [hunfold, get_p_boundary_matrix_e, if_neg (fun hc => h1 (hps ▸ hc.1)),
        if_neg (hps ▸ h1), if_neg (hfs ▸ h2)]
      rfl
    refine ⟨?_, ?_, ?_⟩
    · rw [hM, transposeW_length]
    · intro r hr
      have := transposeW_row_length _ _ r (hM ▸ hr)
      simpa using this
    · intro i j hi hj
      rw [hM, transposeW_entry _ _ i j hi (by simpa using hj),
        getD_map_of_lt _ _ j [] [] hj,
        getD_map_of_lt _ _ i false [] hi]

/-- Witness for C7: for the two-point complex at `p = 0` the `p`-face list is
real and the `(p-1)`-face list is the sentinel, so the matrix is the
`1 × 2` zero row. -/
theorem C7_boundary_matrix_shape_witness :
    get_p_boundary_matrix inpTwo 0 = [List.replicate 2 false] := by
  have h := (C7_boundary_matrix_shape inpTwo 0).2.2.1 (by decide) (by decide)
  rw [h]
  decide

theorem sinsert_perm {β : Type} (le : β → β → Bool) (x : β) :
    ∀ l : List β, List.Perm (sinsert le x l) (x :: l) := by
  intro l
  induction l with
  | nil => exact List.Perm.refl _
  | cons y ys ih =>
    by_cases h : le x y = true
    · simp [sinsert, h]
    · simp only [sinsert, h, if_false]
      exact (List.Perm.cons y ih).trans (List.Perm.swap x y ys)

theorem ssort_perm {β : Type} (le : β → β → Bool) :
    ∀ l : List β, List.Perm (ssort le l) l := by
  intro l
  induction l with
  | nil => exact List.Perm.refl _
  | cons x xs ih => exact (sinsert_perm le x (ssort le xs)).trans (ih.cons x)

theorem mem_ssort {β : Type} (le : β → β → Bool) (l : List β) (x : β) :
    x ∈ ssort le l ↔ x ∈ l :=
  (ssort_perm le l).mem_iff

theorem length_ssort {β : Type} (le : β → β → Bool) (l : List β) :
    (ssort le l).length = l.length :=
  (ssort_perm le l).length_eq

theorem foldr_max_exists (l : List (List String)) (k : Nat) (hk : 0 < k)
    (h : k ≤ l.foldr (fun s m => max s.length m) 0) :
    ∃ s ∈ l, k ≤ s.length := by
  induction l with
  | nil => simp at h; omega
  | cons x xs ih =>
    simp only [List.foldr_cons] at h
    rcases le_max_iff.mp h with h' | h'
    · exact ⟨x, List.mem_cons_self _ _, h'⟩
    · obtain ⟨s, hs, hl⟩ := ih h'
      exact ⟨s, List.mem_cons_of_mem _ hs, hl⟩

theorem two_le_length_of_two_mem {β : Type} {l : List β} {a b : β}
    (h1 : a ∈ l) (h2 : b ∈ l) (hne : a ≠ b) : 2 ≤ l.length := by
  match l with
  | [] => exact absurd h1 (List.not_mem_nil a)
  | [x] =>
    rw [List.mem_singleton] at h1 h2
    exact absurd (h1.trans h2.symm) hne
  | x :: y :: t => simp only [List.length]; omega

theorem two_distinct_sublists {s : List String} (hn : s.Nodup) (k : Nat)
    (hk : 1 ≤ k) (hlen : k + 1 ≤ s.length) :
    ∃ t₁ t₂ : List String, List.Sublist t₁ s ∧ List.Sublist t₂ s ∧
      t₁.length = k ∧ t₂.length = k ∧ t₁ ≠ t₂ := by
  refine ⟨s.take k, (s.drop 1).take k, List.take_sublist k s,
    ((s.drop 1).take_sublist k).trans (s.drop_sublist 1), ?_, ?_, ?_⟩
  · rw [List.length_take]; omega
  · rw [List.length_take, List.length_drop]; omega
  · intro heq
    have h0 : (0 : Nat) < s.length := by omega
    have h1 : (1 : Nat) < s.length := by omega
    have ht1 : (s.take k).getD 0 "" = s.getD 0 "" := by
      rw [List.getD_eq_getElem?_getD, List.getD_eq_getElem?_getD,
        List.getElem?_take, if_pos (by omega : 0 < k)]
    have ht2 : ((s.drop 1).take k).getD 0 "" = s.getD 1 "" := by
      rw [List.getD_eq_getElem?_getD, List.getD_eq_getElem?_getD,
        List.getElem?_take, if_pos (by omega : 0 < k), List.getElem?_drop]
    have hsame : s.getD 0 "" = s.getD 1 "" := by
      rw [← ht1, ← ht2, heq]
    rw [List.getD_eq_getElem?_getD, List.getD_eq_getElem?_getD,
      List.getElem?_eq_getElem h0, List.getElem?_eq_getElem h1] at hsame
    exact absurd ((List.Nodup.getElem_inj_iff hn).mp (by simpa using hsame))
      (by omega)

section ModelLemmas

variable {α R : Type} [Inhabited α] [LinearOrder R] [Mul R] [OfNat R 2]

theorem gps_e_else (e : List (List String) → List (List String))
    (inp : VRInput α R) {p : Int} (hp0 : ¬p = 0) (hin : ¬(p < 0 ∨ dimI inp < p)) :
    get_p_simplices_e e inp p
      = ssort headKeyLe (e ((((get_simplices inp).filter
          (fun s => decide (p + 1 ≤ (s.length : Int)))).map
            (fun s => List.sublistsLen (p + 1).toNat s)).flatten.dedup)) := by
  rw [get_p_simplices_e, if_neg hp0, if_neg hin]

theorem mem_gps_e {e : List (List String) → List (List String)}
    (he : ∀ l, List.Perm (e l) l) (inp : VRInput α R) {p : Int}
    (hp0 : ¬p = 0) (hin : ¬(p < 0 ∨ dimI inp < p)) {x : List String} :
    x ∈ get_p_simplices_e e inp p ↔
      ∃ s ∈ get_simplices inp, List.Sublist x s ∧ x.length = (p + 1).toNat := by
  rw [gps_e_else e inp hp0 hin, mem_ssort, (he _).mem_iff, List.mem_dedup,
    List.mem_flatten]
  constructor
  · rintro ⟨chunk, hchunk, hx⟩
    simp only [List.mem_map, List.mem_filter] at hchunk
    obtain ⟨s, ⟨hs, _⟩, rfl⟩ := hchunk
    obtain ⟨hsub, hlen⟩ := List.mem_sublistsLen.mp hx
    exact ⟨s, hs, hsub, hlen⟩
  · rintro ⟨s, hs, hsub, hlen⟩
    refine ⟨List.sublistsLen (p + 1).toNat s, ?_,
      List.mem_sublistsLen.mpr ⟨hsub, hlen⟩⟩
    simp only [List.mem_map, List.mem_filter]
    refine ⟨s, ⟨hs, ?_⟩, rfl⟩
    rw [decide_eq_true_eq]
    have hxs : x.length ≤ s.length := hsub.length_le
    have hnn : ¬p < 0 := fun hc => hin (Or.inl hc)
    omega

theorem nodup_gps_e {e : List (List String) → List (List String)}
    (he : ∀ l, List.Perm (e l) l) (inp : VRInput α R) {p : Int}
    (hp0 : ¬p = 0) (hin : ¬(p < 0 ∨ dimI inp < p)) :
    (get_p_simplices_e e inp p).Nodup := by
  rw [gps_e_else e inp hp0 hin]
  exact (ssort_perm _ _).nodup_iff.mpr ((he _).nodup_iff.mpr (List.nodup_dedup _))

theorem nodup_of_mem_get_simplices {inp : VRInput α R} {s : List String}
    (hs : s ∈ get_simplices inp) (hnd : inp.vertex_names.Nodup) : s.Nodup := by
  rw [get_simplices, mem_ssort, List.mem_map] at hs
  obtain ⟨c, hc, rfl⟩ := hs
  rw [find_cliques, List.mem_filter, List.mem_sublists] at hc
  exact (ssort_perm _ _).nodup_iff.mpr (hc.1.nodup hnd)

theorem exists_simplex_of_le_dim (inp : VRInput α R) (k : Nat) (hk : 0 < k)
    (hdim : (k : Int) ≤ dimI inp + 1) :
    ∃ s ∈ get_simplices inp, k ≤ s.length := by
  apply foldr_max_exists _ k hk
  have hrw : dimI inp
      = (((get_simplices inp).foldr (fun s m => max s.length m) 0 : Nat) : Int) - 1 :=
    rfl
  rw [hrw] at hdim
  omega

theorem gps_zero (e : List (List String) → List (List String))
    (inp : VRInput α R) :
    get_p_simplices_e e inp 0 = charFaces inp.vertex_names := by
  rw [get_p_simplices_e, if_pos rfl]

theorem gps_neg_one (e : List (List String) → List (List String))
    (inp : VRInput α R) : get_p_simplices_e e inp (-1) = [[]] := by
  rw [get_p_simplices_e, if_neg (by norm_num), if_pos (Or.inl (by norm_num))]

theorem bm_e_real (e : List (List String) → List (List String))
    (inp : VRInput α R) (p : Int)
    (h1 : get_p_simplices_e e inp p ≠ [[]])
    (h2 : get_p_simplices_e e inp (p - 1) ≠ [[]]) :
    get_p_boundary_matrix_e e inp p
      = transposeW (get_p_simplices_e e inp (p - 1)).length
          ((get_p_simplices_e e inp p).map
            (fun s => (get_p_simplices_e e inp (p - 1)).map (fun f => subsetB f s))) := by
  rw [get_p_boundary_matrix_e, if_neg (fun hc => h1 hc.1), if_neg h1, if_neg h2]

theorem bm_e_fs_sentinel (e : List (List String) → List (List String))
    (inp : VRInput α R) (p : Int)
    (h1 : get_p_simplices_e e inp p ≠ [[]])
    (h2 : get_p_simplices_e e inp (p - 1) = [[]]) :
    get_p_boundary_matrix_e e inp p
      = [List.replicate (get_p_simplices_e e inp p).length false] := by
  rw [get_p_boundary_matrix_e, if_neg (fun hc => h1 hc.1), if_neg h1, if_pos h2]

end ModelLemmas

/-- C2 counterexample: for the single-point complex at `p = 0` (which is in
`0..dim` since `dim = 0`) the guarded computation returns 0 while the plain
rank-nullity formula returns 1, so the guard is not equivalent to the
general formula. -/
theorem C2_guard_not_equivalent :
    dimI inpSingle = 0 ∧ get_p_betti inpSingle 0 = 0 ∧
      plain_betti inpSingle 0 = 1 := by decide

/-- C2 amended: for every complex with at least two (distinct) point names
and every dimension `p` in `0..dim`, the guarded computation of
`get_p_betti` agrees with the plain rank-nullity formula
`number_of_columns(M_p) - rank(M_p) - rank(M_p+1)`; the two differ exactly
in the single-point situation exhibited by the counterexample, where both
boundary matrices degenerate to the 1×1 zero matrix. -/
theorem C2_guard_equiv_two_points {α R : Type} [Inhabited α] [LinearOrder R]
    [Mul R] [OfNat R 2] (inp : VRInput α R)
    (hn : 2 ≤ inp.vertex_names.length) (hnd : inp.vertex_names.Nodup)
    (p : Int) (hp : 0 ≤ p) (hpd : p ≤ dimI inp) :
    get_p_betti inp p = plain_betti inp p := by
  suffices h : get_p_boundary_matrix inp p ≠ [[false]] by
    show get_p_betti_e id inp p = plain_betti inp p
    rw [get_p_betti_e, if_neg (fun hc => h hc.1)]
    rfl
  by_cases hp0 : p = 0
  · subst hp0
    have hps : get_p_simplices_e id inp 0 = charFaces inp.vertex_names :=
      gps_zero id inp
    have hlen : (get_p_simplices_e id inp 0).length = inp.vertex_names.length := by
      rw [hps, charFaces, List.length_map]
    have hps_ne : get_p_simplices_e id inp 0 ≠ [[]] := by
      intro hc
      rw [hc] at hlen
      simp at hlen
      omega
    have hfs : get_p_simplices_e id inp (0 - 1) = [[]] := by
      rw [show (0 : Int) - 1 = -1 by norm_num, gps_neg_one]
    have hbm := bm_e_fs_sentinel id inp 0 hps_ne hfs
    show get_p_boundary_matrix_e id inp 0 ≠ [[false]]
    rw [hbm]
    intro hc
    have hrow : List.replicate (get_p_simplices_e id inp 0).length false
        = [false] := by
      injection hc
    have := congrArg List.length hrow
    rw [List.length_replicate, hlen] at this
    simp at this
    omega
  · have hin : ¬(p < 0 ∨ dimI inp < p) := by omega
    have hid : ∀ l : List (List String), List.Perm (id l) l :=
      fun l => List.Perm.refl l
    have hps_ne : get_p_simplices_e id inp p ≠ [[]] := by
      intro hc
      have hmem : ([] : List String) ∈ get_p_simplices_e id inp p := by
        rw [hc]; exact List.mem_singleton.mpr rfl
      rw [mem_gps_e hid inp hp0 hin] at hmem
      obtain ⟨s, _, _, hl⟩ := hmem
      simp only [List.length_nil] at hl
      omega
    have hfs_two : 2 ≤ (get_p_simplices_e id inp (p - 1)).length := by
      by_cases hp1 : p = 1
      · subst hp1
        rw [show (1 : Int) - 1 = 0 by norm_num, gps_zero, charFaces,
          List.length_map]
        exact hn
      · have hp0' : ¬(p - 1 = 0) := by omega
        have hin' : ¬(p - 1 < 0 ∨ dimI inp < p - 1) := by omega
        obtain ⟨s, hs, hslen⟩ := exists_simplex_of_le_dim inp (p + 1).toNat
          (by omega) (by omega)
        have hsnd : s.Nodup := nodup_of_mem_get_simplices hs hnd
        obtain ⟨t₁, t₂, hsub1, hsub2, hl1, hl2, hne⟩ :=
          two_distinct_sublists hsnd p.toNat (by omega) (by omega)
        have hm1 : t₁ ∈ get_p_simplices_e id inp (p - 1) :=
          (mem_gps_e hid inp hp0' hin').mpr ⟨s, hs, hsub1, by omega⟩
        have hm2 : t₂ ∈ get_p_simplices_e id inp (p - 1) :=
          (mem_gps_e hid inp hp0' hin').mpr ⟨s, hs, hsub2, by omega⟩
        exact two_le_length_of_two_mem hm1 hm2 hne
    have hfs_ne : get_p_simplices_e id inp (p - 1) ≠ [[]] := by
      intro hc
      rw [hc] at hfs_two
      simp at hfs_two
    show get_p_boundary_matrix_e id inp p ≠ [[false]]
    rw [bm_e_real id inp p hps_ne hfs_ne]
    intro hc
    have := congrArg List.length hc
    rw [transposeW_length] at this
    simp at this
    omega

/-- Witness for the amended C2 at the two-point complex (`dim = 1`) and
`p = 1`. -/
theorem C2_guard_equiv_two_points_witness :
    get_p_betti inpTwo 1 = plain_betti inpTwo 1 :=
  C2_guard_equiv_two_points inpTwo (by decide) (by decide) 1 (by norm_num)
    (by decide)

theorem xorVec_comm (u v : List Bool) : xorVec u v = xorVec v u :=
  List.zipWith_comm_of_comm _ (fun a b => Bool.xor_comm a b) u v

theorem xorVec_assoc (u v w : List Bool) :
    xorVec (xorVec u v) w = xorVec u (xorVec v w) := by
  induction u generalizing v w with
  | nil => simp [xorVec]
  | cons a as ih =>
    cases v with
    | nil => simp [xorVec]
    | cons b bs =>
      cases w with
      | nil => simp [xorVec]
      | cons c cs =>
        have h := ih bs cs
        simp only [xorVec] at h ⊢
        simp [List.zipWith_cons_cons, Bool.xor_assoc, h]

theorem list_toFinset_map {γ δ : Type} [DecidableEq γ] [DecidableEq δ]
    (f : γ → δ) (l : List γ) : (l.map f).toFinset = l.toFinset.image f := by
  ext x
  simp [List.mem_toFinset, List.mem_map, Finset.mem_image]

theorem xorVec_self (u : List Bool) :
    xorVec u u = List.replicate u.length false := by
  induction u with
  | nil => rfl
  | cons a as ih => simp [xorVec, ih, List.replicate_succ]

theorem xorVec_zero_left {n : Nat} {v : List Bool} (h : v.length = n) :
    xorVec (List.replicate n false) v = v := by
  subst h
  induction v with
  | nil => rfl
  | cons b bs ih => simp [xorVec, List.replicate_succ] at ih ⊢; exact ih

theorem xorVec_cancel {n : Nat} {r v : List Bool} (hr : r.length = n)
    (hv : v.length = n) : xorVec r (xorVec r v) = v := by
  rw [← xorVec_assoc, xorVec_self, hr, xorVec_zero_left hv]

theorem zero_mem_subsetSums (n : Nat) :
    ∀ l : List (List Bool), List.replicate n false ∈ subsetSums n l := by
  intro l
  induction l with
  | nil => simp [subsetSums]
  | cons r rs ih => exact List.mem_append_left _ ih

theorem length_of_mem_subsetSums {n : Nat} :
    ∀ {l : List (List Bool)}, (∀ u ∈ l, u.length = n) →
      ∀ v ∈ subsetSums n l, v.length = n := by
  intro l
  induction l with
  | nil =>
    intro _ v hv
    simp only [subsetSums, List.mem_singleton] at hv
    simp [hv]
  | cons r rs ih =>
    intro hlen v hv
    have hr : r.length = n := hlen r (List.mem_cons_self _ _)
    have hlen' : ∀ u ∈ rs, u.length = n :=
      fun u hu => hlen u (List.mem_cons_of_mem _ hu)
    simp only [subsetSums, List.mem_append, List.mem_map] at hv
    rcases hv with hv | ⟨s, hs, rfl⟩
    · exact ih hlen' v hv
    · have hs' : s.length = n := ih hlen' s hs
      simp [xorVec, hr, hs']

theorem xor_mem_subsetSums {n : Nat} :
    ∀ {l : List (List Bool)}, (∀ u ∈ l, u.length = n) →
      ∀ {u v : List Bool}, u ∈ subsetSums n l → v ∈ subsetSums n l →
        xorVec u v ∈ subsetSums n l := by
  intro l
  induction l with
  | nil =>
    intro _ u v hu hv
    simp only [subsetSums, List.mem_singleton] at hu hv ⊢
    subst hu; subst hv
    rw [xorVec_zero_left (List.length_replicate _ _)]
  | cons r rs ih =>
    intro hlen u v hu hv
    have hr : r.length = n := hlen r (List.mem_cons_self _ _)
    have hlen' : ∀ u ∈ rs, u.length = n :=
      fun u hu => hlen u (List.mem_cons_of_mem _ hu)
    have hlen'' := length_of_mem_subsetSums hlen'
    simp only [subsetSums, List.mem_append, List.mem_map] at hu hv ⊢
    rcases hu with hu | ⟨u', hu', rfl⟩ <;> rcases hv with hv | ⟨v', hv', rfl⟩
    · exact Or.inl (ih hlen' hu hv)
    · refine Or.inr ⟨xorVec u v', ih hlen' hu hv', ?_⟩
      rw [← xorVec_assoc, ← xorVec_assoc, xorVec_comm r u]
    · refine Or.inr ⟨xorVec u' v, ih hlen' hu' hv, ?_⟩
      rw [← xorVec_assoc]
    · refine Or.inl ?_
      have hcalc : xorVec (xorVec r u') (xorVec r v') = xorVec u' v' := by
        rw [xorVec_comm r u', xorVec_assoc, xorVec_cancel hr (hlen'' v' hv'),
          xorVec_comm u' v']
      rw [hcalc]
      exact ih hlen' hu' hv'

theorem toFinset_card_subsetSums {n : Nat} :
    ∀ {l : List (List Bool)}, (∀ u ∈ l, u.length = n) →
      (subsetSums n l).toFinset.card = 2 ^ rankRows n l := by
  intro l
  induction l with
  | nil => intro _; simp [subsetSums, rankRows]
  | cons r rs ih =>
    intro hlen
    have hr : r.length = n := hlen r (List.mem_cons_self _ _)
    have hlen' : ∀ u ∈ rs, u.length = n :=
      fun u hu => hlen u (List.mem_cons_of_mem _ hu)
    have hlen'' := length_of_mem_subsetSums hlen'
    by_cases hmem : r ∈ subsetSums n rs
    · have hset : (subsetSums n (r :: rs)).toFinset = (subsetSums n rs).toFinset := by
        simp only [subsetSums, List.toFinset_append, list_toFinset_map]
        apply Finset.union_eq_left.mpr
        intro x hx
        simp only [Finset.mem_image, List.mem_toFinset] at hx
        obtain ⟨s, hs, rfl⟩ := hx
        exact List.mem_toFinset.mpr (xor_mem_subsetSums hlen' hmem hs)
      rw [hset, ih hlen']
      simp [rankRows, hmem]
    · have hset : (subsetSums n (r :: rs)).toFinset
          = (subsetSums n rs).toFinset ∪ (subsetSums n rs).toFinset.image (xorVec r) := by
        simp [subsetSums, List.toFinset_append, list_toFinset_map]
      have hinj : Set.InjOn (xorVec r) ((subsetSums n rs).toFinset : Set (List Bool)) := by
        intro a ha b hb hab
        have ha' : a.length = n := hlen'' a (List.mem_toFinset.mp ha)
        have hb' : b.length = n := hlen'' b (List.mem_toFinset.mp hb)
        have := congrArg (xorVec r) hab
        rwa [xorVec_cancel hr ha', xorVec_cancel hr hb'] at this
      have hdisj : Disjoint (subsetSums n rs).toFinset
          ((subsetSums n rs).toFinset.image (xorVec r)) := by
        rw [Finset.disjoint_right]
        intro x hximg hxmem
        simp only [Finset.mem_image, List.mem_toFinset] at hximg hxmem
        obtain ⟨s, hs, rfl⟩ := hximg
        have hs' : s.length = n := hlen'' s hs
        have hrs : r ∈ subsetSums n rs := by
          have : xorVec (xorVec r s) s = r := by
            rw [xorVec_assoc, xorVec_self, hs', xorVec_comm,
              xorVec_zero_left hr]
          exact this ▸ xor_mem_subsetSums hlen' hxmem hs
        exact hmem hrs
      rw [hset, Finset.card_union_of_disjoint hdisj,
        Finset.card_image_of_injOn hinj, ih hlen']
      simp [rankRows, hmem, pow_succ]
      ring

theorem subsetSums_toFinset_perm {n : Nat} {l l' : List (List Bool)}
    (h : List.Perm l l') :
    (subsetSums n l).toFinset = (subsetSums n l').toFinset := by
  induction h with
  | nil => rfl
  | cons x _ ih => simp [subsetSums, List.toFinset_append, list_toFinset_map, ih]
  | swap a b l =>
    simp only [subsetSums, List.toFinset_append, list_toFinset_map,
      Finset.image_union, Finset.image_image]
    have hfun : ∀ t ∈ (subsetSums n l).toFinset,
        xorVec a (xorVec b t) = xorVec b (xorVec a t) := by
      intro t _
      rw [← xorVec_assoc, ← xorVec_assoc, xorVec_comm a b]
    have himg : ((subsetSums n l).toFinset.image
          (fun t => xorVec a (xorVec b t)))
        = (subsetSums n l).toFinset.image (fun t => xorVec b (xorVec a t)) :=
      Finset.image_congr hfun
    simp only [Function.comp_def]
    rw [himg]
    ext x
    simp only [Finset.mem_union]
    tauto
  | trans _ _ ih1 ih2 => rw [ih1, ih2]

theorem rankRows_perm {n : Nat} {l l' : List (List Bool)}
    (hlen : ∀ u ∈ l, u.length = n) (h : List.Perm l l') :
    rankRows n l = rankRows n l' := by
  have hlen' : ∀ u ∈ l', u.length = n := fun u hu => hlen u (h.mem_iff.mpr hu)
  have h1 := toFinset_card_subsetSums hlen
  have h2 := toFinset_card_subsetSums hlen'
  rw [subsetSums_toFinset_perm h, h2] at h1
  exact (Nat.pow_right_injective (by norm_num) h1.symm)

theorem xorVec_map_map {β : Type} (g h : β → Bool) (L : List β) :
    xorVec (L.map g) (L.map h) = L.map (fun x => xor (g x) (h x)) := by
  induction L with
  | nil => rfl
  | cons x xs ih =>
    show xor (g x) (h x) :: xorVec (xs.map g) (xs.map h)
      = xor (g x) (h x) :: xs.map (fun x => xor (g x) (h x))
    rw [ih]

theorem subsetSums_funSums {β : Type} (L : List β) :
    ∀ gs : List (β → Bool),
      subsetSums L.length (gs.map (fun g => L.map g))
        = (funSums gs).map (fun g => L.map g) := by
  intro gs
  induction gs with
  | nil =>
    simp only [List.map_nil, subsetSums, funSums, List.map_cons]
    rw [List.map_const']
  | cons g gs ih =>
    simp only [List.map_cons, subsetSums, funSums, ih, List.map_append,
      List.map_map]
    congr 1
    apply List.map_congr_left
    intro h _
    simp only [Function.comp_apply]
    exact xorVec_map_map g h L

theorem dedup_length_map_congr {γ δ ε : Type} [DecidableEq δ] [DecidableEq ε]
    (f : γ → δ) (g : γ → ε) :
    ∀ F : List γ, (∀ a ∈ F, ∀ b ∈ F, (f a = f b ↔ g a = g b)) →
      ((F.map f).dedup).length = ((F.map g).dedup).length := by
  intro F
  induction F with
  | nil => simp
  | cons a F ih =>
    intro h
    have hsub : ∀ a' ∈ F, ∀ b ∈ F, (f a' = f b ↔ g a' = g b) := fun a' ha' b hb =>
      h a' (List.mem_cons_of_mem _ ha') b (List.mem_cons_of_mem _ hb)
    by_cases hmem : f a ∈ F.map f
    · have hmem' : g a ∈ F.map g := by
        obtain ⟨b, hb, hfb⟩ := List.mem_map.mp hmem
        exact List.mem_map.mpr ⟨b, hb, (h b (List.mem_cons_of_mem _ hb) a
          (List.mem_cons_self a F)).mp hfb⟩
      rw [List.map_cons, List.map_cons, List.dedup_cons_of_mem hmem,
        List.dedup_cons_of_mem hmem']
      exact ih hsub
    · have hmem' : g a ∉ F.map g := by
        intro hc
        obtain ⟨b, hb, hgb⟩ := List.mem_map.mp hc
        exact hmem (List.mem_map.mpr ⟨b, hb, (h b (List.mem_cons_of_mem _ hb) a
          (List.mem_cons_self a F)).mpr hgb⟩)
      rw [List.map_cons, List.map_cons, List.dedup_cons_of_not_mem hmem,
        List.dedup_cons_of_not_mem hmem']
      simp only [List.length_cons]
      rw [ih hsub]

theorem map_eq_map_iff_mem {β γ : Type} (f g : β → γ) :
    ∀ L : List β, (L.map f = L.map g ↔ ∀ x ∈ L, f x = g x) := by
  intro L
  induction L with
  | nil => simp
  | cons x xs ih => simp [List.map_cons, ih]

theorem rankRows_map_perm {β : Type} {L L' : List β} (hp : List.Perm L L')
    (gs : List (β → Bool)) :
    rankRows L.length (gs.map (fun g => L.map g))
      = rankRows L'.length (gs.map (fun g => L'.map g)) := by
  have hl1 : ∀ u ∈ gs.map (fun g => L.map g), u.length = L.length := by
    intro u hu
    obtain ⟨g, _, rfl⟩ := List.mem_map.mp hu
    simp
  have hl2 : ∀ u ∈ gs.map (fun g => L'.map g), u.length = L'.length := by
    intro u hu
    obtain ⟨g, _, rfl⟩ := List.mem_map.mp hu
    simp
  have h1 := toFinset_card_subsetSums hl1
  have h2 := toFinset_card_subsetSums hl2
  rw [List.card_toFinset, subsetSums_funSums] at h1 h2
  have hcong : (((funSums gs).map (fun g => L.map g)).dedup).length
      = (((funSums gs).map (fun g => L'.map g)).dedup).length := by
    apply dedup_length_map_congr
    intro a _ b _
    rw [map_eq_map_iff_mem, map_eq_map_iff_mem]
    constructor
    · intro hall x hx
      exact hall x (hp.mem_iff.mpr hx)
    · intro hall x hx
      exact hall x (hp.mem_iff.mp hx)
  rw [hcong, h2] at h1
  exact Nat.pow_right_injective (by norm_num) h1.symm

theorem range_map_getD {β γ : Type} (l : List β) (d : β) (g : β → γ) :
    (List.range l.length).map (fun j => g (l.getD j d)) = l.map g := by
  induction l with
  | nil => rfl
  | cons x xs ih =>
    rw [List.length_cons, List.range_succ_eq_map, List.map_cons, List.map_map]
    have hcomp : ((fun j => g ((x :: xs).getD j d)) ∘ Nat.succ)
        = fun j => g (xs.getD j d) := by
      funext j
      simp [List.getD_cons_succ]
    rw [hcomp, ih]
    rfl

theorem transposeW_subset_matrix (ps fs : List (List String)) :
    transposeW fs.length (ps.map (fun s => fs.map (fun f => subsetB f s)))
      = fs.map (fun f => ps.map (fun s => subsetB f s)) := by
  unfold transposeW
  have hrow : ∀ i ∈ List.range fs.length,
      (ps.map (fun s => fs.map (fun f => subsetB f s))).map (fun r => r.getD i false)
        = ps.map (fun s => subsetB (fs.getD i []) s) := by
    intro i hi
    rw [List.map_map]
    apply List.map_congr_left
    intro s _
    simp only [Function.comp_apply]
    exact getD_map_of_lt _ fs i false [] (List.mem_range.mp hi)
  rw [List.map_congr_left hrow]
  exact range_map_getD fs [] (fun f => ps.map (fun s => subsetB f s))

section InvarianceLemmas

variable {α R : Type} [Inhabited α] [LinearOrder R] [Mul R] [OfNat R 2]

theorem gps_out_of_range (e : List (List String) → List (List String))
    (inp : VRInput α R) {p : Int} (hp0 : ¬p = 0) (hin : p < 0 ∨ dimI inp < p) :
    get_p_simplices_e e inp p = [[]] := by
  rw [get_p_simplices_e, if_neg hp0, if_pos hin]

theorem gps_e_perm {e₁ e₂ : List (List String) → List (List String)}
    (he₁ : ∀ l, List.Perm (e₁ l) l) (he₂ : ∀ l, List.Perm (e₂ l) l)
    (inp : VRInput α R) (p : Int) :
    List.Perm (get_p_simplices_e e₁ inp p) (get_p_simplices_e e₂ inp p) := by
  by_cases hp0 : p = 0
  · subst hp0
    rw [gps_zero, gps_zero]
  · by_cases hin : p < 0 ∨ dimI inp < p
    · rw [gps_out_of_range e₁ inp hp0 hin, gps_out_of_range e₂ inp hp0 hin]
    · rw [gps_e_else e₁ inp hp0 hin, gps_e_else e₂ inp hp0 hin]
      exact (ssort_perm _ _).trans ((he₁ _).trans
        ((he₂ _).symm.trans (ssort_perm _ _).symm))

end InvarianceLemmas

theorem subset_matrix_eq_false_transfer {ps1 ps2 fs1 fs2 : List (List String)}
    (hps : List.Perm ps1 ps2) (hfs : List.Perm fs1 fs2)
    (h : fs1.map (fun f => ps1.map (fun s => subsetB f s)) = [[false]]) :
    fs2.map (fun f => ps2.map (fun s => subsetB f s)) = [[false]] := by
  have hlen1 : fs1.length = 1 := by
    have := congrArg List.length h
    simpa using this
  obtain ⟨f, rfl⟩ := List.length_eq_one.mp hlen1
  have hfs2 : fs2 = [f] := by
    have := hfs.symm
    exact List.perm_singleton.mp this
  have hrow : ps1.map (fun s => subsetB f s) = [false] := by
    simpa using h
  have hlen2 : ps1.length = 1 := by
    have := congrArg List.length hrow
    simpa using this
  obtain ⟨s, rfl⟩ := List.length_eq_one.mp hlen2
  have hps2 : ps2 = [s] := by
    have := hps.symm
    exact List.perm_singleton.mp this
  have hval : subsetB f s = false := by
    simpa using hrow
  rw [hfs2, hps2]
  simp [hval]

theorem subset_matrix_invariant {ps1 ps2 fs1 fs2 : List (List String)}
    (hps : List.Perm ps1 ps2) (hfs : List.Perm fs1 fs2) :
    (fs1.map (fun f => ps1.map (fun s => subsetB f s)) = [[false]]
      ↔ fs2.map (fun f => ps2.map (fun s => subsetB f s)) = [[false]]) ∧
    colNum (fs1.map (fun f => ps1.map (fun s => subsetB f s)))
      = colNum (fs2.map (fun f => ps2.map (fun s => subsetB f s))) ∧
    rankM (fs1.map (fun f => ps1.map (fun s => subsetB f s)))
      = rankM (fs2.map (fun f => ps2.map (fun s => subsetB f s))) := by
  refine ⟨⟨subset_matrix_eq_false_transfer hps hfs,
    subset_matrix_eq_false_transfer hps.symm hfs.symm⟩, ?_, ?_⟩
  · cases fs1 with
    | nil =>
      have h2 : fs2 = [] := hfs.symm.eq_nil
      rw [h2]
      rfl
    | cons f rest =>
      cases fs2 with
      | nil => exact absurd hfs.eq_nil (by simp)
      | cons f2 rest2 =>
        simp only [List.map_cons, colNum, List.headD_cons, List.length_map]
        exact hps.length_eq
  · cases fs1 with
    | nil =>
      have h2 : fs2 = [] := hfs.symm.eq_nil
      rw [h2]
      rfl
    | cons f rest =>
      cases fs2 with
      | nil => exact absurd hfs.eq_nil (by simp)
      | cons f2 rest2 =>
        have hc1 : colNum ((f :: rest).map (fun f => ps1.map (fun s => subsetB f s)))
            = ps1.length := by
          simp [colNum]
        have hc2 : colNum ((f2 :: rest2).map (fun f => ps2.map (fun s => subsetB f s)))
            = ps2.length := by
          simp [colNum]
        have hform1 : (f :: rest).map (fun f => ps1.map (fun s => subsetB f s))
            = ((f :: rest).map subsetB).map (fun g => ps1.map g) :=
          (List.map_map (fun g => ps1.map g) subsetB (f :: rest)).symm
        have hform2 : (f2 :: rest2).map (fun f => ps2.map (fun s => subsetB f s))
            = ((f2 :: rest2).map subsetB).map (fun g => ps2.map g) :=
          (List.map_map (fun g => ps2.map g) subsetB (f2 :: rest2)).symm
        rw [rankM, rankM, hc1, hc2, hform1, hform2]
        have hstep1 : rankRows ps1.length
              (((f :: rest).map subsetB).map (fun g => ps1.map g))
            = rankRows ps2.length
              (((f :: rest).map subsetB).map (fun g => ps2.map g)) :=
          rankRows_map_perm hps ((f :: rest).map subsetB)
        have hlens : ∀ u ∈ ((f :: rest).map subsetB).map (fun g => ps2.map g),
            u.length = ps2.length := by
          intro u hu
          obtain ⟨g, _, rfl⟩ := List.mem_map.mp hu
          simp
        have hperm : List.Perm
            (((f :: rest).map subsetB).map (fun g => ps2.map g))
            (((f2 :: rest2).map subsetB).map (fun g => ps2.map g)) :=
          (hfs.map subsetB).map (fun g => ps2.map g)
        have hstep2 : rankRows ps2.length
              (((f :: rest).map subsetB).map (fun g => ps2.map g))
            = rankRows ps2.length
              (((f2 :: rest2).map subsetB).map (fun g => ps2.map g)) :=
          rankRows_perm hlens hperm
        rw [hstep1, hstep2]

section BettiInvariance

variable {α R : Type} [Inhabited α] [LinearOrder R] [Mul R] [OfNat R 2]

theorem bm_e_both_sentinel (e : List (List String) → List (List String))
    (inp : VRInput α R) (p : Int)
    (h1 : get_p_simplices_e e inp p = [[]])
    (h2 : get_p_simplices_e e inp (p - 1) = [[]]) :
    get_p_boundary_matrix_e e inp p = [[false]] := by
  rw [get_p_boundary_matrix_e, if_pos ⟨h1, h2⟩]

theorem bm_e_ps_sentinel (e : List (List String) → List (List String))
    (inp : VRInput α R) (p : Int)
    (h1 : get_p_simplices_e e inp p = [[]])
    (h2 : get_p_simplices_e e inp (p - 1) ≠ [[]]) :
    get_p_boundary_matrix_e e inp p
      = List.replicate (get_p_simplices_e e inp (p - 1)).length [false] := by
  rw [get_p_boundary_matrix_e, if_neg (fun hc => h2 hc.2), if_pos h1]

theorem bm_e_invariant {e₁ e₂ : List (List String) → List (List String)}
    (he₁ : ∀ l, List.Perm (e₁ l) l) (he₂ : ∀ l, List.Perm (e₂ l) l)
    (inp : VRInput α R) (p : Int) :
    (get_p_boundary_matrix_e e₁ inp p = [[false]]
      ↔ get_p_boundary_matrix_e e₂ inp p = [[false]]) ∧
    colNum (get_p_boundary_matrix_e e₁ inp p)
      = colNum (get_p_boundary_matrix_e e₂ inp p) ∧
    rankM (get_p_boundary_matrix_e e₁ inp p)
      = rankM (get_p_boundary_matrix_e e₂ inp p) := by
  have hps := gps_e_perm he₁ he₂ inp p
  have hfs := gps_e_perm he₁ he₂ inp (p - 1)
  by_cases h1 : get_p_simplices_e e₁ inp p = [[]]
  · have h1' : get_p_simplices_e e₂ inp p = [[]] := by
      have hs := hps.symm
      rw [h1] at hs
      exact List.perm_singleton.mp hs
    by_cases h2 : get_p_simplices_e e₁ inp (p - 1) = [[]]
    · have h2' : get_p_simplices_e e₂ inp (p - 1) = [[]] := by
        have hs := hfs.symm
        rw [h2] at hs
        exact List.perm_singleton.mp hs
      have heq : get_p_boundary_matrix_e e₁ inp p
          = get_p_boundary_matrix_e e₂ inp p := by
        rw [bm_e_both_sentinel e₁ inp p h1 h2, bm_e_both_sentinel e₂ inp p h1' h2']
      exact ⟨by rw [heq], by rw [heq], by rw [heq]⟩
    · have h2' : get_p_simplices_e e₂ inp (p - 1) ≠ [[]] := by
        intro hc
        apply h2
        have hs := hfs
        rw [hc] at hs
        exact List.perm_singleton.mp hs
      have heq : get_p_boundary_matrix_e e₁ inp p
          = get_p_boundary_matrix_e e₂ inp p := by
        rw [bm_e_ps_sentinel e₁ inp p h1 h2, bm_e_ps_sentinel e₂ inp p h1' h2',
          hfs.length_eq]
      exact ⟨by rw [heq], by rw [heq], by rw [heq]⟩
  · have h1' : get_p_simplices_e e₂ inp p ≠ [[]] := by
      intro hc
      apply h1
      have hs := hps
      rw [hc] at hs
      exact List.perm_singleton.mp hs
    by_cases h2 : get_p_simplices_e e₁ inp (p - 1) = [[]]
    · have h2' : get_p_simplices_e e₂ inp (p - 1) = [[]] := by
        have hs := hfs.symm
        rw [h2] at hs
        exact List.perm_singleton.mp hs
      have heq : get_p_boundary_matrix_e e₁ inp p
          = get_p_boundary_matrix_e e₂ inp p := by
        rw [bm_e_fs_sentinel e₁ inp p h1 h2, bm_e_fs_sentinel e₂ inp p h1' h2',
          hps.length_eq]
      exact ⟨by rw [heq], by rw [heq], by rw [heq]⟩
    · have h2' : get_p_simplices_e e₂ inp (p - 1) ≠ [[]] := by
        intro hc
        apply h2
        have hs := hfs
        rw [hc] at hs
        exact List.perm_singleton.mp hs
      rw [bm_e_real e₁ inp p h1 h2, bm_e_real e₂ inp p h1' h2',
        transposeW_subset_matrix, transposeW_subset_matrix]
      exact subset_matrix_invariant hps hfs

theorem get_p_betti_e_invariant {e₁ e₂ : List (List String) → List (List String)}
    (he₁ : ∀ l, List.Perm (e₁ l) l) (he₂ : ∀ l, List.Perm (e₂ l) l)
    (inp : VRInput α R) (p : Int) :
    get_p_betti_e e₁ inp p = get_p_betti_e e₂ inp p := by
  obtain ⟨hgp, hcp, hrp⟩ := bm_e_invariant he₁ he₂ inp p
  obtain ⟨hgp1, hcp1, hrp1⟩ := bm_e_invariant he₁ he₂ inp (p + 1)
  rw [get_p_betti_e, get_p_betti_e]
  by_cases hg : get_p_boundary_matrix_e e₁ inp p = [[false]]
      ∧ get_p_boundary_matrix_e e₁ inp (p + 1) = [[false]]
  · rw [if_pos hg, if_pos ⟨hgp.mp hg.1, hgp1.mp hg.2⟩]
  · rw [if_neg hg, if_neg (fun hc => hg ⟨hgp.mpr hc.1, hgp1.mpr hc.2⟩),
      hcp, hrp, hrp1]

theorem get_betti_e_invariant {e₁ e₂ : List (List String) → List (List String)}
    (he₁ : ∀ l, List.Perm (e₁ l) l) (he₂ : ∀ l, List.Perm (e₂ l) l)
    (inp : VRInput α R) : get_betti_e e₁ inp = get_betti_e e₂ inp := by
  rw [get_betti_e, get_betti_e]
  exact List.map_congr_left
    (fun k _ => get_p_betti_e_invariant he₁ he₂ inp (k : Int))

end BettiInvariance

/-- C9 counterexample: the Python set of 1-faces of the four-point cycle can
be iterated in (at least) two orders — the canonical one and `swapEnum`,
which is a permutation of the same deduplicated face list, as set iteration
order is per-process (hash randomisation) — and the two runs return face
lists that differ in element order, refuting the claim that identical inputs
always yield identical face lists including element order. -/
theorem C9_face_list_order_differs :
    List.Perm (swapEnum [["A", "B"], ["A", "C"], ["B", "D"], ["C", "D"]])
      [["A", "B"], ["A", "C"], ["B", "D"], ["C", "D"]] ∧
    get_p_simplices_e swapEnum inpSq 1 ≠ get_p_simplices_e id inpSq 1 := by
  decide

/-- C9 amended: identical (points, radius, metric) yield an identical
proximity graph (which does not depend on the set order at all), and for any
two valid set-iteration orders the per-dimension face lists agree up to
element order (exactly for `p = 0` and out-of-range `p`) and the Betti
sequence is identical; only the element order of the face lists for
`1 ≤ p ≤ dim` can differ between runs. -/
theorem C9_determinism_up_to_set_order {α R : Type} [Inhabited α]
    [LinearOrder R] [Mul R] [OfNat R 2] (inp : VRInput α R)
    (e₁ e₂ : List (List String) → List (List String))
    (he₁ : ∀ l, List.Perm (e₁ l) l) (he₂ : ∀ l, List.Perm (e₂ l) l) :
    (∀ p : Int,
      List.Perm (get_p_simplices_e e₁ inp p) (get_p_simplices_e e₂ inp p)) ∧
    (∀ p : Int, p = 0 ∨ p < 0 ∨ dimI inp < p →
      get_p_simplices_e e₁ inp p = get_p_simplices_e e₂ inp p) ∧
    get_betti_e e₁ inp = get_betti_e e₂ inp := by
  refine ⟨fun p => gps_e_perm he₁ he₂ inp p, fun p hp => ?_,
    get_betti_e_invariant he₁ he₂ inp⟩
  rcases hp with hp | hp
  · subst hp
    rw [gps_zero, gps_zero]
  · by_cases hp0 : p = 0
    · subst hp0
      rw [gps_zero, gps_zero]
    · rw [gps_out_of_range e₁ inp hp0 hp, gps_out_of_range e₂ inp hp0 hp]

/-- Witness for the amended C9: on the four-point cycle the swapped set
order produces the same Betti sequence as the canonical one. -/
theorem C9_determinism_up_to_set_order_witness :
    get_betti_e swapEnum inpSq = get_betti_e id inpSq :=
  (C9_determinism_up_to_set_order inpSq swapEnum id
    (fun l => by
      by_cases h : l = [["A", "B"], ["A", "C"], ["B", "D"], ["C", "D"]]
      · rw [swapEnum, if_pos h, h]
        decide
      · rw [swapEnum, if_neg h])
    (fun l => List.Perm.refl l)).2.2

end Tedea
